import Mathlib

/-!
Verification of the Guitar Hero III texture utilities (unpack.py / repack.py).

Bytes are modelled as natural numbers and byte buffers as `List Nat`;
Python slices `b[a:c]` become `pySlice b a c`, `bytes.find` becomes `pyFind`,
and the scanner / extractor / repack loops are translated function by
function from the Python source.  Filenames are modelled as the byte
strings Python would write (ASCII codes), so that deterministic naming is
provable by arithmetic on decimal digits.
-/

set_option maxRecDepth 1000000

/-- The 4-byte magic marker b'DDS ' (ASCII codes of D, D, S, space). -/
def ddsSignature : List Nat := [68, 68, 83, 32]

/-- Python `data[i]` with out-of-range reads defaulting to 0 (only used at
in-range positions by the model, mirroring `struct.unpack_from`). -/
def byteAt (data : List Nat) (i : Nat) : Nat := (data.get? i).getD 0

/-- Python slice `data[a:c]` for 0 ≤ a ≤ c (clamped at the end of the list,
exactly as Python clamps slices). -/
def pySlice (data : List Nat) (a c : Nat) : List Nat := (data.drop a).take (c - a)

/-- Little-endian unsigned 32-bit read at offset `off`, modelling
`struct.unpack_from('<I', data, off)`. -/
def le32 (data : List Nat) (off : Nat) : Nat :=
  byteAt data off + byteAt data (off + 1) * 256 + byteAt data (off + 2) * 65536 +
    byteAt data (off + 3) * 16777216

/-- Characters stripped by Python `str.strip()` within the ASCII range:
tab, newline, vertical tab, form feed, carriage return, the four
separator control codes 28–31, and space. -/
def pyIsSpace (c : Nat) : Bool :=
  c == 9 || c == 10 || c == 11 || c == 12 || c == 13 ||
    c == 28 || c == 29 || c == 30 || c == 31 || c == 32

/-- Python `bytes.decode('ascii', errors='ignore')`: keeps exactly the bytes
below 128 (as their code points), dropping the rest. -/
def asciiDecodeIgnore (bs : List Nat) : List Nat := bs.filter (fun b => b < 128)

/-- Python `str.strip()` on a list of code points. -/
def pyStrip (cs : List Nat) : List Nat :=
  ((cs.dropWhile pyIsSpace).reverse.dropWhile pyIsSpace).reverse

/-- True when the magic marker occurs in `data` starting at position `i`. -/
def occursAt (data : List Nat) (i : Nat) : Bool :=
  decide (i + ddsSignature.length ≤ data.length) &&
    (List.range ddsSignature.length).all (fun j => data.get? (i + j) == ddsSignature.get? j)

/-- Python `data.find(b'DDS ', start)`: the least position `≥ start` where the
marker occurs, `none` when there is no such position (Python returns -1). -/
def pyFind (data : List Nat) (start : Nat) : Option Nat :=
  ((List.range (data.length + 1)).filter (fun i => decide (start ≤ i) && occursAt data i)).head?
/-- The scanner loop of `extract_dds_files_with_log` (unpack.py lines 11–15):
starting at `start`, repeatedly `find` the marker and restart the search one
byte past each hit.  `fuel` is a structural bound on the number of loop
iterations; `scanFrom_eq_occList` below shows any fuel of at least
`data.length + 1 - start` yields the loop's exact semantics. -/
def scanFrom (data : List Nat) : Nat → Nat → List Nat
  | 0, _ => []
  | fuel + 1, start =>
    match pyFind data start with
    | none => []
    | some i => i :: scanFrom data fuel (i + 1)

/-- The full scan of a container: all marker offsets in discovery order. -/
def scan (data : List Nat) : List Nat := scanFrom data (data.length + 1) 0

/-- The offsets at least `start` where the marker occurs, in increasing order. -/
def occList (data : List Nat) (start : Nat) : List Nat :=
  (List.range (data.length + 1)).filter (fun i => decide (start ≤ i) && occursAt data i)

/-- Decimal digits (ASCII codes, most significant first) of a natural number,
as Python prints it. -/
def natDigits (n : Nat) : List Nat :=
  if h : n < 10 then [48 + n]
  else natDigits (n / 10) ++ [48 + n % 10]
decreasing_by exact Nat.div_lt_self (by omega) (by omega)

/-- Python format `f'{n:03}'`: the decimal digits of `n`, zero padded on the
left to a minimum width of 3. -/
def pad3 (n : Nat) : List Nat :=
  if n < 10 then [48, 48, 48 + n]
  else if n < 100 then [48, 48 + n / 10, 48 + n % 10]
  else natDigits n

/-- The generated output filename `f'dds_{i+1:03}.dds'` as bytes, with `i` the
0-based discovery position (unpack.py line 30). -/
def ddsName (i : Nat) : List Nat :=
  [100, 100, 115, 95] ++ pad3 (i + 1) ++ [46, 100, 100, 115]

/-- The ASCII bytes of the string UNKNOWN, the extractor's fallback tag. -/
def unknownTag : List Nat := [85, 78, 75, 78, 79, 87, 78]

/-- The format tag the extractor records in the index for one extracted slice
(unpack.py lines 33–39): the stripped ASCII decoding of `dds_data[84:88]`,
with an empty result coerced to UNKNOWN.  No validity check is made. -/
def extractFourcc (dds_data : List Nat) : List Nat :=
  let fourcc := pyStrip (asciiDecodeIgnore (pySlice dds_data 84 88))
  if fourcc = [] then unknownTag else fourcc

/-- The extraction loop of `extract_dds_files_with_log` (unpack.py lines
27–46): position `i` yields the slice from `offsets[i]` up to `offsets[i+1]`
(or to end of container for the last offset), named `ddsName i`.  Each entry
is (filename bytes, origin offset, slice bytes). -/
def extractEntriesAux (data : List Nat) : Nat → List Nat → List (List Nat × Nat × List Nat)
  | _, [] => []
  | i, start :: rest =>
    let e := match rest with | [] => data.length | next :: _ => next
    (ddsName i, start, pySlice data start e) :: extractEntriesAux data (i + 1) rest

/-- Extraction of a whole container: scan, then slice between consecutive
offsets.  The index records, in order, each entry's name and offset (and the
tag `extractFourcc entry.2.2`); the extracted file for an entry holds exactly
the bytes `entry.2.2`. -/
def extractEntries (data : List Nat) : List (List Nat × Nat × List Nat) :=
  extractEntriesAux data 0 (scan data)

/-- Header inspector `get_dds_format` (repack.py lines 6–10): `none` for a
buffer shorter than 128 bytes or without the magic marker; otherwise the
stripped ASCII decoding of bytes [84,88) (possibly the empty string). -/
def get_dds_format (dds_bytes : List Nat) : Option (List Nat) :=
  if dds_bytes.length < 128 ∨ pySlice dds_bytes 0 4 ≠ ddsSignature then none
  else some (pyStrip (asciiDecodeIgnore (pySlice dds_bytes 84 88)))

/-- Header inspector `get_mipmap_count` (repack.py lines 12–17): 1 for an
invalid buffer, otherwise the little-endian 32-bit field at offset 28 with 0
coerced to 1. -/
def get_mipmap_count (dds_bytes : List Nat) : Nat :=
  if dds_bytes.length < 128 ∨ pySlice dds_bytes 0 4 ≠ ddsSignature then 1
  else
    let mipmap_count := le32 dds_bytes 28
    if mipmap_count > 0 then mipmap_count else 1

/-- Python truthiness of a format result: `None` and the empty string are
falsy (the `if not orig_format or not new_format` test, repack.py line 104). -/
def formatTruthy : Option (List Nat) → Bool
  | none => false
  | some s => !s.isEmpty

/-- One repair-log line, tagged by the code path that emits it
(repack.py lines 81, 89, 105, 111, 119); the payload fields are the data
interpolated into the corresponding Python message. -/
inductive LogEntry where
  | missingFile (name : List Nat)
  | noHeader (name : List Nat) (offset : Nat)
  | undeterminedFormat (name : List Nat) (offset : Nat)
  | formatMismatch (name : List Nat) (offset : Nat) (orig new : List Nat)
  | exceedsSize (name : List Nat) (offset : Nat)
deriving DecidableEq

/-- In-place byte-range overwrite `data[offset:offset+len(repl)] = repl`
(repack.py line 123), reached only under `offset + len(repl) ≤ len(data)`. -/
def splice (data : List Nat) (offset : Nat) (repl : List Nat) : List Nat :=
  data.take offset ++ repl ++ data.drop (offset + repl.length)

/-- One iteration of the repack loop of `replace_dds_in_file` (repack.py
lines 77–124) on the current container bytes `data`.  `file` is the
replacement file's bytes (`none` models a missing file); `regen` is the
external mipmap-regeneration collaborator, mapping (file name, target mip
count, current file bytes) to the file's bytes after the call.  Returns the
new container bytes, the repair-log lines appended, and the collaborator
invocations made. -/
def processEntry (regen : List Nat → Nat → List Nat → List Nat) (data : List Nat)
    (name : List Nat) (offset : Nat) (file : Option (List Nat)) :
    List Nat × List LogEntry × List (List Nat × Nat) :=
  match file with
  | none => (data, [LogEntry.missingFile name], [])
  | some bytes =>
    let original_header := pySlice data offset (offset + 128)
    if pySlice original_header 0 4 ≠ ddsSignature then
      (data, [LogEntry.noHeader name offset], [])
    else
      let orig_format := get_dds_format original_header
      let orig_mipmaps := get_mipmap_count original_header
      let regenerated := if orig_mipmaps > 1 then
          (regen name orig_mipmaps bytes, [(name, orig_mipmaps)])
        else (bytes, [])
      let dds_data := regenerated.1
      let new_format := get_dds_format dds_data
      if !formatTruthy orig_format || !formatTruthy new_format then
        (data, [LogEntry.undeterminedFormat name offset], regenerated.2)
      else
        let mismatch := if orig_format ≠ new_format then
            [LogEntry.formatMismatch name offset (orig_format.getD [])
              (new_format.getD [])]
          else []
        if offset + dds_data.length > data.length then
          (data, mismatch ++ [LogEntry.exceedsSize name offset], regenerated.2)
        else
          (splice data offset dds_data, mismatch, regenerated.2)

/-- The repack loop over all index entries in log order, threading the
container bytes through each entry; repair-log lines and collaborator calls
accumulate in processing order.  `lookup` models the extraction directory:
the bytes of the replacement file stored under a name, if present. -/
def repackLoop (regen : List Nat → Nat → List Nat → List Nat) (data : List Nat)
    (entries : List (List Nat × Nat)) (lookup : List Nat → Option (List Nat)) :
    List Nat × List LogEntry × List (List Nat × Nat) :=
  match entries with
  | [] => (data, [], [])
  | (name, offset) :: rest =>
    let step := processEntry regen data name offset (lookup name)
    let tail := repackLoop regen step.1 rest lookup
    (tail.1, step.2.1 ++ tail.2.1, step.2.2 ++ tail.2.2)

/-- A collaborator that leaves every file unchanged (the round-trip scenario
where no external tool runs). -/
def regenNoop : List Nat → Nat → List Nat → List Nat := fun _ _ bytes => bytes

/-- The extraction directory produced by extracting `data`: filenames map to
the extracted slices written under them. -/
def extractLookup (data : List Nat) : List Nat → Option (List Nat) := fun name =>
  ((extractEntries data).find? (fun e => e.1 == name)).map (fun e => e.2.2)

def data256 : List Nat :=
  ddsSignature ++ List.replicate 124 0 ++ ddsSignature ++ List.replicate 124 0

def data96 : List Nat :=
  ddsSignature ++ List.replicate 80 0 ++ [68, 88, 84, 49] ++ List.replicate 8 0

def bufSpaces : List Nat :=
  ddsSignature ++ List.replicate 80 0 ++ [32, 32, 32, 32] ++ List.replicate 40 0

def hdrTagA : List Nat := ddsSignature ++ List.replicate 80 0 ++ [65] ++ List.replicate 43 0

def hdrTagB : List Nat := ddsSignature ++ List.replicate 80 0 ++ [66] ++ List.replicate 43 0

theorem pyFind_some {data : List Nat} {start i : Nat} (h : pyFind data start = some i) :
    start ≤ i ∧ occursAt data i = true := by
  have hmem : i ∈ (List.range (data.length + 1)).filter
      (fun i => decide (start ≤ i) && occursAt data i) :=
    List.mem_of_mem_head? (Option.mem_def.mpr h)
  have := List.of_mem_filter hmem
  simp only [Bool.and_eq_true, decide_eq_true_eq] at this
  exact this

theorem occursAt_le_length {data : List Nat} {i : Nat} (h : occursAt data i = true) :
    i + 4 ≤ data.length := by
  unfold occursAt at h
  simp only [Bool.and_eq_true, decide_eq_true_eq] at h
  exact h.1

theorem filter_head_cons {q : Nat → Bool} :
    ∀ {l : List Nat}, l.Pairwise (· < ·) → ∀ {s i : Nat},
      (l.filter (fun j => decide (s ≤ j) && q j)).head? = some i →
      l.filter (fun j => decide (s ≤ j) && q j) =
        i :: l.filter (fun j => decide (i + 1 ≤ j) && q j) := by
  intro l
  induction l with
  | nil => intro _ s i h; simp at h
  | cons a t ih =>
    intro hp s i h
    rw [List.pairwise_cons] at hp
    by_cases hpa : (decide (s ≤ a) && q a) = true
    · rw [List.filter_cons, if_pos hpa] at h ⊢
      have hia : i = a := by simpa using h.symm
      subst hia
      have hsa : s ≤ i := by
        rcases Bool.and_eq_true _ _ |>.mp hpa with ⟨hs, _⟩
        exact of_decide_eq_true hs
      have hfa2 : (decide (i + 1 ≤ i) && q i) = false := by
        have : decide (i + 1 ≤ i) = false := decide_eq_false_iff_not.mpr (by omega)
        rw [this]; rfl
      rw [List.filter_cons, if_neg (by simp [hfa2])]
      congr 1
      apply List.filter_congr
      intro b hb
      have hab : i < b := hp.1 b hb
      have h1 : decide (s ≤ b) = true := decide_eq_true_eq.mpr (by omega)
      have h2 : decide (i + 1 ≤ b) = true := decide_eq_true_eq.mpr (by omega)
      rw [h1, h2]
    · rw [List.filter_cons, if_neg hpa] at h ⊢
      have hi_mem : i ∈ t.filter (fun j => decide (s ≤ j) && q j) :=
        List.mem_of_mem_head? (Option.mem_def.mpr h)
      have hi_t : i ∈ t := List.mem_of_mem_filter hi_mem
      have hai : a < i := hp.1 i hi_t
      have hfa : (decide (i + 1 ≤ a) && q a) = false := by
        have : decide (i + 1 ≤ a) = false := decide_eq_false_iff_not.mpr (by omega)
        rw [this]; rfl
      rw [List.filter_cons, if_neg (by simp [hfa]), ih hp.2 h]

theorem scanFrom_eq_occList (data : List Nat) :
    ∀ fuel start, data.length + 1 - start ≤ fuel →
      scanFrom data fuel start = occList data start := by
  intro fuel
  induction fuel with
  | zero =>
    intro start hs
    have : occList data start = [] := by
      apply List.filter_eq_nil_iff.mpr
      intro i hi
      rw [List.mem_range] at hi
      have : decide (start ≤ i) = false := decide_eq_false_iff_not.mpr (by omega)
      simp [this]
    rw [this]; rfl
  | succ fuel ih =>
    intro start hs
    rw [scanFrom]
    cases h : pyFind data start with
    | none =>
      have : occList data start = [] := List.head?_eq_none_iff.mp h
      rw [this]
    | some i =>
      have hi := pyFind_some h
      have hlen := occursAt_le_length hi.2
      show i :: scanFrom data fuel (i + 1) = occList data start
      rw [ih (i + 1) (by omega)]
      exact (filter_head_cons (List.pairwise_lt_range _) h).symm

theorem scan_eq_occList (data : List Nat) : scan data = occList data 0 :=
  scanFrom_eq_occList data (data.length + 1) 0 (by omega)

theorem take_append_drop_length (l : List Nat) (k : Nat) :
    l.take k ++ l.drop (l.take k).length = l := by
  rcases le_or_lt k l.length with h | h
  · rw [List.length_take, Nat.min_eq_left h, List.take_append_drop]
  · rw [List.take_of_length_le (le_of_lt h), List.drop_of_length_le (le_refl _),
      List.append_nil]

/-- Splicing a prefix of the container's own suffix back at its origin is the
identity. -/
theorem splice_self (data : List Nat) (off k : Nat) :
    splice data off ((data.drop off).take k) = data := by
  unfold splice
  rw [List.append_assoc, ← List.drop_drop, take_append_drop_length, List.take_append_drop]

theorem splice_length {data : List Nat} {off : Nat} {repl : List Nat}
    (h : off + repl.length ≤ data.length) : (splice data off repl).length = data.length := by
  unfold splice
  simp only [List.length_append, List.length_take, List.length_drop]
  omega

/-- Each repack iteration preserves the container's byte length: skip branches
return the container unchanged and the splice branch is guarded by the size
check. -/
theorem processEntry_fst_length (regen : List Nat → Nat → List Nat → List Nat)
    (data name : List Nat) (offset : Nat) (file : Option (List Nat)) :
    (processEntry regen data name offset file).1.length = data.length := by
  cases file with
  | none => rfl
  | some bytes =>
    simp only [processEntry]
    repeat' split
    all_goals try rfl
    all_goals (apply splice_length; omega)

theorem repackLoop_fst_length (regen : List Nat → Nat → List Nat → List Nat)
    (lookup : List Nat → Option (List Nat)) :
    ∀ (entries : List (List Nat × Nat)) (data : List Nat),
      (repackLoop regen data entries lookup).1.length = data.length := by
  intro entries
  induction entries with
  | nil => intro data; rfl
  | cons e rest ih =>
    intro data
    obtain ⟨name, offset⟩ := e
    show (repackLoop regen (processEntry regen data name offset (lookup name)).1
        rest lookup).1.length = data.length
    rw [ih, processEntry_fst_length]

/-- A repack iteration whose replacement file holds a prefix of the
container's own suffix at the entry's offset leaves the container unchanged:
every skip branch keeps `data`, and the splice branch writes the same bytes
back in place. -/
theorem processEntry_self (data name : List Nat) (offset k : Nat) :
    (processEntry regenNoop data name offset (some ((data.drop offset).take k))).1 = data := by
  simp only [processEntry, regenNoop]
  repeat' split
  all_goals try rfl
  all_goals exact splice_self data offset k

theorem repackLoop_self (data : List Nat) (lookup : List Nat → Option (List Nat)) :
    ∀ es : List (List Nat × Nat × List Nat),
      (∀ e ∈ es, lookup e.1 = some e.2.2 ∧ ∃ k, e.2.2 = (data.drop e.2.1).take k) →
      (repackLoop regenNoop data (es.map (fun e => (e.1, e.2.1))) lookup).1 = data := by
  intro es
  induction es with
  | nil => intro _; rfl
  | cons e rest ih =>
    intro h
    have he := h e (List.mem_cons_self e rest)
    have hrest := fun x hx => h x (List.mem_cons_of_mem e hx)
    obtain ⟨hlk, k, hk⟩ := he
    show (repackLoop regenNoop
        (processEntry regenNoop data e.1 e.2.1 (lookup e.1)).1
        (rest.map (fun e => (e.1, e.2.1))) lookup).1 = data
    rw [hlk, hk, processEntry_self]
    exact ih hrest

theorem natDigits_ne_nil (n : Nat) : natDigits n ≠ [] := by
  rw [natDigits]
  split
  · simp
  · simp

theorem natDigits_getLast? (n : Nat) : (natDigits n).getLast? = some (48 + n % 10) := by
  rw [natDigits]
  split
  · next h => rw [Nat.mod_eq_of_lt h]; rfl
  · exact List.getLast?_concat _

theorem natDigits_dropLast (n : Nat) :
    (natDigits n).dropLast = if n < 10 then [] else natDigits (n / 10) := by
  rw [natDigits]
  split
  · rfl
  · exact List.dropLast_concat

theorem natDigits_head_ge (n : Nat) (hn : 1 ≤ n) :
    ∀ c, (natDigits n).head? = some c → 49 ≤ c := by
  induction n using Nat.strong_induction_on with
  | _ n ih =>
    intro c hc
    rw [natDigits] at hc
    split at hc
    · next h =>
      simp only [List.head?_cons, Option.some.injEq] at hc
      omega
    · next h =>
      rw [List.head?_append] at hc
      rcases hh : (natDigits (n / 10)).head? with _ | c0
      · exact absurd (List.head?_eq_none_iff.mp hh) (natDigits_ne_nil _)
      · rw [hh] at hc
        have hx : c0 = c := by simpa using hc
        subst hx
        exact ih (n / 10) (Nat.div_lt_self (by omega) (by omega)) (by omega) c0 hh

theorem natDigits_injective : ∀ m n : Nat, natDigits m = natDigits n → m = n := by
  intro m
  induction m using Nat.strong_induction_on with
  | _ m ih =>
    intro n h
    have hlast : 48 + m % 10 = 48 + n % 10 := by
      have h1 := natDigits_getLast? m
      have h2 := natDigits_getLast? n
      rw [h, h2] at h1
      exact (Option.some.injEq _ _ ▸ h1).symm ▸ rfl
    have hmod : m % 10 = n % 10 := by omega
    have hdl : (natDigits m).dropLast = (natDigits n).dropLast := by rw [h]
    rw [natDigits_dropLast, natDigits_dropLast] at hdl
    by_cases hm : m < 10 <;> by_cases hn : n < 10
    · omega
    · rw [if_pos hm, if_neg hn] at hdl
      exact absurd hdl.symm (natDigits_ne_nil _)
    · rw [if_neg hm, if_pos hn] at hdl
      exact absurd hdl (natDigits_ne_nil _)
    · rw [if_neg hm, if_neg hn] at hdl
      have := ih (m / 10) (Nat.div_lt_self (by omega) (by omega)) (n / 10) hdl
      omega

theorem pad3_head (n : Nat) : ∀ c, (pad3 n).head? = some c → (n < 100 → c = 48) ∧ (100 ≤ n → 49 ≤ c) := by
  intro c hc
  unfold pad3 at hc
  split at hc
  · next h =>
    refine ⟨fun _ => ?_, fun h100 => by omega⟩
    simpa using hc.symm
  · split at hc
    · next h h2 =>
      refine ⟨fun _ => ?_, fun h100 => by omega⟩
      simpa using hc.symm
    · next h h2 =>
      refine ⟨fun hlt => by omega, fun h100 => ?_⟩
      exact natDigits_head_ge n (by omega) c hc

theorem pad3_injective : ∀ m n : Nat, pad3 m = pad3 n → m = n := by
  intro m n h
  by_cases hm1 : m < 10 <;> by_cases hn1 : n < 10
  · unfold pad3 at h
    rw [if_pos hm1, if_pos hn1] at h
    simp only [List.cons.injEq] at h
    omega
  · by_cases hn2 : n < 100
    · unfold pad3 at h
      rw [if_pos hm1, if_neg hn1, if_pos hn2] at h
      simp only [List.cons.injEq] at h
      omega
    · exfalso
      have hh : (pad3 m).head? = some 48 := by
        unfold pad3; rw [if_pos hm1]; rfl
      rw [h] at hh
      have := pad3_head n 48 hh
      omega
  · by_cases hm2 : m < 100
    · unfold pad3 at h
      rw [if_neg hm1, if_pos hm2, if_pos hn1] at h
      simp only [List.cons.injEq] at h
      omega
    · exfalso
      have hh : (pad3 n).head? = some 48 := by
        unfold pad3; rw [if_pos hn1]; rfl
      rw [← h] at hh
      have := pad3_head m 48 hh
      omega
  · by_cases hm2 : m < 100 <;> by_cases hn2 : n < 100
    · unfold pad3 at h
      rw [if_neg hm1, if_pos hm2, if_neg hn1, if_pos hn2] at h
      simp only [List.cons.injEq] at h
      omega
    · exfalso
      have hh : (pad3 m).head? = some 48 := by
        unfold pad3; rw [if_neg hm1, if_pos hm2]; rfl
      rw [h] at hh
      have := pad3_head n 48 hh
      omega
    · exfalso
      have hh : (pad3 n).head? = some 48 := by
        unfold pad3; rw [if_neg hn1, if_pos hn2]; rfl
      rw [← h] at hh
      have := pad3_head m 48 hh
      omega
    · unfold pad3 at h
      rw [if_neg hm1, if_neg hm2, if_neg hn1, if_neg hn2] at h
      exact natDigits_injective m n h

theorem ddsName_injective : ∀ m n : Nat, ddsName m = ddsName n → m = n := by
  intro m n h
  unfold ddsName at h
  have h1 := List.append_cancel_right h
  have h2 := List.append_cancel_left h1
  have := pad3_injective (m + 1) (n + 1) h2
  omega

theorem extractEntriesAux_length (data : List Nat) :
    ∀ (offsets : List Nat) (i : Nat), (extractEntriesAux data i offsets).length = offsets.length := by
  intro offsets
  induction offsets with
  | nil => intro i; rfl
  | cons start rest ih =>
    intro i
    show (extractEntriesAux data i (start :: rest)).length = rest.length + 1
    simp only [extractEntriesAux]
    simp only [List.length_cons, ih]

theorem extractEntriesAux_getD (data : List Nat) :
    ∀ (offsets : List Nat) (i j : Nat), j < offsets.length →
      (extractEntriesAux data i offsets).getD j ([], 0, []) =
        (ddsName (i + j), offsets.getD j 0,
          pySlice data (offsets.getD j 0)
            (if j + 1 < offsets.length then offsets.getD (j + 1) 0 else data.length)) := by
  intro offsets
  induction offsets with
  | nil => intro i j hj; simp at hj
  | cons start rest ih =>
    intro i j hj
    simp only [extractEntriesAux]
    cases j with
    | zero =>
      cases rest with
      | nil => simp [List.getD_cons_zero]
      | cons next rest2 =>
        simp only [List.getD_cons_zero, List.length_cons, List.getD_cons_succ]
        have h1 : 0 + 1 < rest2.length + 1 + 1 := by omega
        rw [if_pos h1, Nat.add_zero]
    | succ j =>
      simp only [List.getD_cons_succ, List.length_cons] at hj ⊢
      rw [ih (i + 1) j (by omega)]
      have harith : i + 1 + j = i + (j + 1) := by omega
      rw [harith]
      by_cases h2 : j + 1 < rest.length
      · rw [if_pos h2, if_pos (by omega)]
      · rw [if_neg h2, if_neg (by omega)]

theorem extractEntriesAux_region (data : List Nat) :
    ∀ (offsets : List Nat) (i : Nat), ∀ e ∈ extractEntriesAux data i offsets,
      ∃ k, e.2.2 = (data.drop e.2.1).take k := by
  intro offsets
  induction offsets with
  | nil => intro i e he; simp [extractEntriesAux] at he
  | cons start rest ih =>
    intro i e he
    simp only [extractEntriesAux] at he
    rcases List.mem_cons.mp he with h | h
    · subst h
      cases rest with
      | nil => exact ⟨data.length - start, rfl⟩
      | cons next rest2 => exact ⟨next - start, rfl⟩
    · exact ih (i + 1) e h

theorem extractEntriesAux_name (data : List Nat) :
    ∀ (offsets : List Nat) (i : Nat), ∀ e ∈ extractEntriesAux data i offsets,
      ∃ j, i ≤ j ∧ e.1 = ddsName j := by
  intro offsets
  induction offsets with
  | nil => intro i e he; simp [extractEntriesAux] at he
  | cons start rest ih =>
    intro i e he
    simp only [extractEntriesAux] at he
    rcases List.mem_cons.mp he with h | h
    · exact ⟨i, le_refl i, by rw [h]⟩
    · obtain ⟨j, hj, hje⟩ := ih (i + 1) e h
      exact ⟨j, by omega, hje⟩

/-- Looking up an extracted entry's own filename in the extraction directory
finds exactly that entry: the generated names are pairwise distinct. -/
theorem extractEntriesAux_find_self (data : List Nat) :
    ∀ (offsets : List Nat) (i : Nat), ∀ e ∈ extractEntriesAux data i offsets,
      (extractEntriesAux data i offsets).find? (fun x => x.1 == e.1) = some e := by
  intro offsets
  induction offsets with
  | nil => intro i e he; simp [extractEntriesAux] at he
  | cons start rest ih =>
    intro i e he
    simp only [extractEntriesAux] at he ⊢
    rcases List.mem_cons.mp he with h | h
    · subst h
      exact List.find?_cons_of_pos _ (by simp)
    · obtain ⟨j, hj, hje⟩ := extractEntriesAux_name data rest (i + 1) e h
      have hne : ddsName i ≠ e.1 := by
        rw [hje]
        intro hcontra
        have := ddsName_injective i j hcontra
        omega
      rw [List.find?_cons_of_neg _ (by simpa using hne), ih (i + 1) e h]

theorem occursAt_at_length (data : List Nat) : occursAt data data.length = false := by
  cases h : occursAt data data.length with
  | false => rfl
  | true => exact absurd (occursAt_le_length h) (by omega)

/-- The scan loop returns exactly the positions where the marker occurs, in
increasing positional order. -/
theorem scan_eq_filter (data : List Nat) :
    scan data = (List.range data.length).filter (fun i => occursAt data i) := by
  rw [scan_eq_occList]
  unfold occList
  rw [List.range_succ, List.filter_append]
  have h1 : (List.range data.length).filter (fun i => decide (0 ≤ i) && occursAt data i)
      = (List.range data.length).filter (fun i => occursAt data i) := by
    apply List.filter_congr
    intro a _
    simp
  have h2 : [data.length].filter (fun i => decide (0 ≤ i) && occursAt data i) = [] := by
    simp [occursAt_at_length]
  rw [h1, h2, List.append_nil]
/-- Claim C2: for every container byte sequence with N occurrences of the
4-byte magic marker, `scan` returns exactly N offsets, strictly increasing,
each the start position of an occurrence, and the empty list when no marker
occurs. -/
theorem scan_offsets_spec (data : List Nat) :
    scan data = (List.range data.length).filter (fun i => occursAt data i) ∧
    (scan data).Pairwise (· < ·) ∧
    (scan data).length = (List.range data.length).countP (fun i => occursAt data i) ∧
    (∀ i, i ∈ scan data ↔ occursAt data i = true) ∧
    ((∀ i, occursAt data i = false) → scan data = []) := by
  have hf := scan_eq_filter data
  refine ⟨hf, ?_, ?_, ?_, ?_⟩
  · rw [hf]
    exact (List.pairwise_lt_range _).filter _
  · rw [hf, List.countP_eq_length_filter]
  · intro i
    rw [hf, List.mem_filter, List.mem_range]
    constructor
    · rintro ⟨-, h⟩
      exact h
    · intro h
      exact ⟨by have := occursAt_le_length h; omega, h⟩
  · intro h
    rw [hf]
    apply List.filter_eq_nil_iff.mpr
    intro a _
    simp [h a]

/-- Witness for C2 at a concrete marker-free container. -/
theorem scan_offsets_spec_witness : (∀ i, occursAt [] i = false) ∧ scan ([] : List Nat) = [] := by
  have hno : ∀ i, occursAt [] i = false := by
    intro i
    unfold occursAt
    have hd : decide (i + ddsSignature.length ≤ ([] : List Nat).length) = false := by
      simp [ddsSignature]
    rw [hd, Bool.false_and]
  exact ⟨hno, (scan_offsets_spec []).2.2.2.2 hno⟩

/-- Claim C1: extracting a container and repacking it with the extracted
files unmodified (and the mipmap collaborator a no-op) reproduces the
original container bytes exactly. -/
theorem extract_repack_roundtrip (data : List Nat) :
    (repackLoop regenNoop data
      ((extractEntries data).map (fun e => (e.1, e.2.1))) (extractLookup data)).1 = data := by
  apply repackLoop_self
  intro e he
  constructor
  · unfold extractLookup extractEntries
    rw [extractEntriesAux_find_self data (scan data) 0 e he]
    rfl
  · exact extractEntriesAux_region data (scan data) 0 e he

/-- Claim C10: repacking never changes the container's byte length, whatever
the entries, replacement files and collaborator do. -/
theorem repack_preserves_length (regen : List Nat → Nat → List Nat → List Nat)
    (data : List Nat) (entries : List (List Nat × Nat))
    (lookup : List Nat → Option (List Nat)) :
    (repackLoop regen data entries lookup).1.length = data.length :=
  repackLoop_fst_length regen lookup entries data

/-- Claim C5: on a buffer shorter than 128 bytes or lacking the magic marker
the header inspectors return the undetermined sentinel and mipmap count 1
(and, being Lean functions, are total). -/
theorem inspect_invalid_returns_sentinel (b : List Nat)
    (h : b.length < 128 ∨ pySlice b 0 4 ≠ ddsSignature) :
    get_dds_format b = none ∧ get_mipmap_count b = 1 := by
  unfold get_dds_format get_mipmap_count
  rw [if_pos h, if_pos h]
  exact ⟨rfl, rfl⟩

/-- Witness for C5 at the empty buffer. -/
theorem inspect_invalid_returns_sentinel_witness :
    (([] : List Nat).length < 128 ∨ pySlice [] 0 4 ≠ ddsSignature) ∧
      (get_dds_format [] = none ∧ get_mipmap_count [] = 1) :=
  ⟨by decide, inspect_invalid_returns_sentinel [] (by decide)⟩

/-- Claim C7: for an entry whose original header reports a mipmap count of at
most 1 — including a raw field value of 0, which `get_mipmap_count` reports
as 1 — the repack iteration never invokes the external mipmap-regeneration
collaborator. -/
theorem single_level_no_regen (regen : List Nat → Nat → List Nat → List Nat)
    (data name : List Nat) (offset : Nat) (file : Option (List Nat))
    (h : get_mipmap_count (pySlice data offset (offset + 128)) ≤ 1) :
    (processEntry regen data name offset file).2.2 = [] ∧
      ∀ b : List Nat, le32 b 28 = 0 → get_mipmap_count b = 1 := by
  constructor
  · cases file with
    | none => rfl
    | some bytes =>
      simp only [processEntry]
      repeat' split
      all_goals first
        | rfl
        | (exfalso; omega)
  · intro b hb
    unfold get_mipmap_count
    split
    · rfl
    · show (if le32 b 28 > 0 then le32 b 28 else 1) = 1
      rw [hb]
      simp

/-- Witness for C7 at a concrete entry with an undetermined header (reported
mipmap count 1). -/
theorem single_level_no_regen_witness :
    get_mipmap_count (pySlice [] 0 (0 + 128)) ≤ 1 ∧
      (processEntry regenNoop [] [] 0 none).2.2 = [] :=
  ⟨by decide, (single_level_no_regen regenNoop [] [] 0 none (by decide)).1⟩

/-- Claim C3: an entry whose (possibly regenerated) replacement does not fit
at its offset is hard-skipped: the container is left unmodified, a repair-log
line is appended (the size-overflow line itself whenever the earlier header
and format checks pass), and the loop continues with the next entry on the
unchanged container. -/
theorem size_overflow_hard_skip (regen : List Nat → Nat → List Nat → List Nat)
    (data name bytes dds : List Nat) (offset : Nat) (rest : List (List Nat × Nat))
    (lookup : List Nat → Option (List Nat))
    (hdds : dds = if get_mipmap_count (pySlice data offset (offset + 128)) > 1 then
        regen name (get_mipmap_count (pySlice data offset (offset + 128))) bytes
      else bytes)
    (hover : offset + dds.length > data.length)
    (hlk : lookup name = some bytes) :
    (processEntry regen data name offset (some bytes)).1 = data ∧
    (processEntry regen data name offset (some bytes)).2.1 ≠ [] ∧
    (pySlice (pySlice data offset (offset + 128)) 0 4 = ddsSignature →
      formatTruthy (get_dds_format (pySlice data offset (offset + 128))) = true →
      formatTruthy (get_dds_format dds) = true →
      LogEntry.exceedsSize name offset ∈ (processEntry regen data name offset (some bytes)).2.1) ∧
    (repackLoop regen data ((name, offset) :: rest) lookup).1 =
      (repackLoop regen data rest lookup).1 := by
  subst hdds
  by_cases hmip : get_mipmap_count (pySlice data offset (offset + 128)) > 1
  case pos =>
    rw [if_pos hmip] at hover
    have h1 : (processEntry regen data name offset (some bytes)).1 = data := by
      simp only [processEntry, if_pos hmip]
      repeat' split
      all_goals first
        | rfl
        | (exfalso; omega)
    refine ⟨h1, ?_, ?_, ?_⟩
    · simp only [processEntry, if_pos hmip]
      repeat' split
      all_goals simp
    · intro hhdr horig hnew
      rw [if_pos hmip] at hnew
      simp only [processEntry, if_pos hmip,
        if_neg (not_not_intro hhdr), horig, hnew, Bool.not_true, Bool.or_self,
        Bool.false_or, if_pos hover]
      simp
    · show (repackLoop regen (processEntry regen data name offset (lookup name)).1
          rest lookup).1 = (repackLoop regen data rest lookup).1
      rw [hlk, h1]
  case neg =>
    rw [if_neg hmip] at hover
    have h1 : (processEntry regen data name offset (some bytes)).1 = data := by
      simp only [processEntry, if_neg hmip]
      repeat' split
      all_goals first
        | rfl
        | (exfalso; omega)
    refine ⟨h1, ?_, ?_, ?_⟩
    · simp only [processEntry, if_neg hmip]
      repeat' split
      all_goals simp
    · intro hhdr horig hnew
      rw [if_neg hmip] at hnew
      simp only [processEntry, if_neg hmip,
        if_neg (not_not_intro hhdr), horig, hnew, Bool.not_true, Bool.or_self,
        Bool.false_or, if_pos hover]
      simp
    · show (repackLoop regen (processEntry regen data name offset (lookup name)).1
          rest lookup).1 = (repackLoop regen data rest lookup).1
      rw [hlk, h1]

/-- Witness for C3: a 1-byte replacement for an empty container overflows and
is skipped. -/
theorem size_overflow_hard_skip_witness :
    (0 + ([1] : List Nat).length > ([] : List Nat).length) ∧
    ((processEntry regenNoop [] [] 0 (some [1])).1 = [] ∧
     (processEntry regenNoop [] [] 0 (some [1])).2.1 ≠ [] ∧
     (pySlice (pySlice [] 0 (0 + 128)) 0 4 = ddsSignature →
       formatTruthy (get_dds_format (pySlice [] 0 (0 + 128))) = true →
       formatTruthy (get_dds_format [1]) = true →
       LogEntry.exceedsSize [] 0 ∈ (processEntry regenNoop [] [] 0 (some [1])).2.1) ∧
     (repackLoop regenNoop [] (([], 0) :: []) (fun _ => some [1])).1 =
       (repackLoop regenNoop [] [] (fun _ => some [1])).1) :=
  ⟨by decide, size_overflow_hard_skip regenNoop [] [] [1] [1] 0 [] (fun _ => some [1])
    (by decide) (by decide) rfl⟩

theorem truthy_valid {l : List Nat} (h : formatTruthy (get_dds_format l) = true) :
    128 ≤ l.length ∧ pySlice l 0 4 = ddsSignature := by
  unfold get_dds_format at h
  split at h
  · simp [formatTruthy] at h
  · next hc =>
    push_neg at hc
    exact ⟨by omega, hc.2⟩

theorem drop_len_append (A rest : List Nat) (off : Nat) (h : A.length = off) :
    (A ++ rest).drop off = rest := by
  rw [← h]
  exact List.drop_left A rest

theorem pySlice_splice {data repl : List Nat} {off : Nat}
    (hfit : off + repl.length ≤ data.length) (hlen : 128 ≤ repl.length) :
    pySlice (splice data off repl) off (off + 128) = repl.take 128 := by
  unfold pySlice splice
  rw [Nat.add_sub_cancel_left, List.append_assoc]
  rw [drop_len_append (data.take off) _ off (by rw [List.length_take]; omega)]
  exact List.take_append_of_le_length hlen

theorem get_dds_format_take128 {l : List Nat} (h : 128 ≤ l.length) :
    get_dds_format (l.take 128) = get_dds_format l := by
  have hlen : (l.take 128).length = 128 := by rw [List.length_take]; omega
  have h04 : pySlice (l.take 128) 0 4 = pySlice l 0 4 := by
    unfold pySlice
    rw [List.drop_zero, List.drop_zero, List.take_take]
    norm_num
  have h84 : pySlice (l.take 128) 84 88 = pySlice l 84 88 := by
    unfold pySlice
    rw [List.drop_take, List.take_take]
    norm_num
  unfold get_dds_format
  by_cases hm : pySlice l 0 4 = ddsSignature
  · rw [if_neg (by push_neg; exact ⟨by omega, by rw [h04]; exact hm⟩),
      if_neg (by push_neg; exact ⟨by omega, hm⟩), h84]
  · rw [if_pos (Or.inr (by rw [h04]; exact hm)), if_pos (Or.inr hm)]

/-- Splicing a replacement whose determined format differs from the original
header's format necessarily changes the container bytes. -/
theorem splice_format_ne {data repl : List Nat} {off : Nat}
    (hfit : off + repl.length ≤ data.length) (hlen : 128 ≤ repl.length)
    (hne : get_dds_format (pySlice data off (off + 128)) ≠ get_dds_format repl) :
    splice data off repl ≠ data := by
  intro heq
  apply hne
  calc get_dds_format (pySlice data off (off + 128))
      = get_dds_format (pySlice (splice data off repl) off (off + 128)) := by rw [heq]
    _ = get_dds_format (repl.take 128) := by rw [pySlice_splice hfit hlen]
    _ = get_dds_format repl := get_dds_format_take128 hlen

/-- Claim C4: an entry whose original and replacement formats are both
determined but different, with an in-bounds replacement, is still spliced
(the container bytes change) and produces exactly one format-mismatch line
in the repair log. -/
theorem format_mismatch_advisory (regen : List Nat → Nat → List Nat → List Nat)
    (data name bytes dds : List Nat) (offset : Nat)
    (hdds : dds = if get_mipmap_count (pySlice data offset (offset + 128)) > 1 then
        regen name (get_mipmap_count (pySlice data offset (offset + 128))) bytes
      else bytes)
    (hhdr : pySlice (pySlice data offset (offset + 128)) 0 4 = ddsSignature)
    (horig : formatTruthy (get_dds_format (pySlice data offset (offset + 128))) = true)
    (hnew : formatTruthy (get_dds_format dds) = true)
    (hmm : get_dds_format (pySlice data offset (offset + 128)) ≠ get_dds_format dds)
    (hfit : offset + dds.length ≤ data.length) :
    (processEntry regen data name offset (some bytes)).1 = splice data offset dds ∧
    splice data offset dds ≠ data ∧
    (processEntry regen data name offset (some bytes)).2.1 =
      [LogEntry.formatMismatch name offset
        ((get_dds_format (pySlice data offset (offset + 128))).getD [])
        ((get_dds_format dds).getD [])] := by
  have hsep := splice_format_ne hfit (truthy_valid hnew).1 hmm
  subst hdds
  by_cases hmip : get_mipmap_count (pySlice data offset (offset + 128)) > 1
  case pos =>
    rw [if_pos hmip] at hnew hmm hfit hsep ⊢
    have hcond : (!formatTruthy (get_dds_format (pySlice data offset (offset + 128))) ||
        !formatTruthy (get_dds_format
          (regen name (get_mipmap_count (pySlice data offset (offset + 128))) bytes))) = false := by
      rw [horig, hnew]
      rfl
    simp only [processEntry, if_pos hmip]
    rw [if_neg (not_not_intro hhdr), if_neg (by simp [hcond]), if_pos hmm, if_neg (by omega)]
    exact ⟨rfl, hsep, rfl⟩
  case neg =>
    rw [if_neg hmip] at hnew hmm hfit hsep ⊢
    have hcond : (!formatTruthy (get_dds_format (pySlice data offset (offset + 128))) ||
        !formatTruthy (get_dds_format bytes)) = false := by
      rw [horig, hnew]
      rfl
    simp only [processEntry, if_neg hmip]
    rw [if_neg (not_not_intro hhdr), if_neg (by simp [hcond]), if_pos hmm, if_neg (by omega)]
    exact ⟨rfl, hsep, rfl⟩

/-- Witness for C4: two valid 128-byte headers whose 4-byte tags differ at
byte 84; the mismatch is logged once and the splice still replaces the
container. -/
theorem format_mismatch_advisory_witness :
    (hdrTagB = if get_mipmap_count (pySlice hdrTagA 0 (0 + 128)) > 1 then
        regenNoop [] (get_mipmap_count (pySlice hdrTagA 0 (0 + 128))) hdrTagB
      else hdrTagB) ∧
    pySlice (pySlice hdrTagA 0 (0 + 128)) 0 4 = ddsSignature ∧
    formatTruthy (get_dds_format (pySlice hdrTagA 0 (0 + 128))) = true ∧
    formatTruthy (get_dds_format hdrTagB) = true ∧
    get_dds_format (pySlice hdrTagA 0 (0 + 128)) ≠ get_dds_format hdrTagB ∧
    0 + hdrTagB.length ≤ hdrTagA.length ∧
    ((processEntry regenNoop hdrTagA [] 0 (some hdrTagB)).1 = splice hdrTagA 0 hdrTagB ∧
     splice hdrTagA 0 hdrTagB ≠ hdrTagA ∧
     (processEntry regenNoop hdrTagA [] 0 (some hdrTagB)).2.1 =
       [LogEntry.formatMismatch [] 0
         ((get_dds_format (pySlice hdrTagA 0 (0 + 128))).getD [])
         ((get_dds_format hdrTagB).getD [])]) :=
  ⟨by decide, by decide, by decide, by decide, by decide, by decide,
    format_mismatch_advisory regenNoop hdrTagA [] hdrTagB hdrTagB 0
      (by decide) (by decide) (by decide) (by decide) (by decide) (by decide)⟩

/-- Counterexample to C6: a valid 128-byte header whose tag bytes [84,88) are
four spaces.  `get_dds_format` (the repack-side header inspector) returns the
empty string, not an "unknown" tag. -/
theorem empty_tag_coercion_cex :
    bufSpaces.length = 128 ∧ pySlice bufSpaces 0 4 = ddsSignature ∧
      get_dds_format bufSpaces = some [] ∧ get_dds_format bufSpaces ≠ some unknownTag := by
  decide

/-- Amended C6: on a valid header whose stripped tag bytes are empty, the
repack-side inspector `get_dds_format` returns the empty tag (which repack
then treats as undetermined, `formatTruthy` false); only the extraction-side
tag computation coerces the empty result, and it does so to UNKNOWN
(uppercase). -/
theorem empty_tag_coercion_amended (b : List Nat) (h1 : 128 ≤ b.length)
    (h2 : pySlice b 0 4 = ddsSignature)
    (h3 : pyStrip (asciiDecodeIgnore (pySlice b 84 88)) = []) :
    get_dds_format b = some [] ∧ formatTruthy (get_dds_format b) = false ∧
      extractFourcc b = unknownTag := by
  have hfmt : get_dds_format b = some [] := by
    unfold get_dds_format
    rw [if_neg (by push_neg; exact ⟨by omega, h2⟩), h3]
  refine ⟨hfmt, by rw [hfmt]; rfl, ?_⟩
  simp only [extractFourcc, h3]
  rfl

/-- Witness for the amended C6 at the four-spaces header. -/
theorem empty_tag_coercion_amended_witness :
    (128 ≤ bufSpaces.length ∧ pySlice bufSpaces 0 4 = ddsSignature ∧
      pyStrip (asciiDecodeIgnore (pySlice bufSpaces 84 88)) = []) ∧
    (get_dds_format bufSpaces = some [] ∧ formatTruthy (get_dds_format bufSpaces) = false ∧
      extractFourcc bufSpaces = unknownTag) :=
  ⟨by decide, empty_tag_coercion_amended bufSpaces (by decide) (by decide) (by decide)⟩

/-- Claim C8: the extracted slice at position j runs from offsets[j] to
offsets[j+1] (end of container for the last), names are the deterministic
1-based zero-padded sequence in discovery order, and the two-resource
scenario container extracts to offsets [0, 128] with two 128-byte slices
named dds_001.dds and dds_002.dds. -/
theorem extract_slicing_and_naming :
    (∀ (data : List Nat) (j : Nat), j < (scan data).length →
      (extractEntries data).length = (scan data).length ∧
      (extractEntries data).getD j ([], 0, []) =
        (ddsName j, (scan data).getD j 0,
          pySlice data ((scan data).getD j 0)
            (if j + 1 < (scan data).length then (scan data).getD (j + 1) 0
             else data.length))) ∧
    scan data256 = [0, 128] ∧
    extractEntries data256 =
      [(ddsName 0, 0, pySlice data256 0 128), (ddsName 1, 128, pySlice data256 128 256)] ∧
    (pySlice data256 0 128).length = 128 ∧
    (pySlice data256 128 256).length = 128 ∧
    ddsName 0 = [100, 100, 115, 95, 48, 48, 49, 46, 100, 100, 115] ∧
    ddsName 1 = [100, 100, 115, 95, 48, 48, 50, 46, 100, 100, 115] := by
  refine ⟨?_, by decide, by decide, by decide, by decide, by decide, by decide⟩
  intro data j hj
  constructor
  · exact extractEntriesAux_length data (scan data) 0
  · have hg := extractEntriesAux_getD data (scan data) 0 j hj
    rw [Nat.zero_add] at hg
    exact hg

/-- Witness for C8 at position 0 of the scenario container. -/
theorem extract_slicing_and_naming_witness :
    0 < (scan data256).length ∧
    ((extractEntries data256).length = (scan data256).length ∧
      (extractEntries data256).getD 0 ([], 0, []) =
        (ddsName 0, (scan data256).getD 0 0,
          pySlice data256 ((scan data256).getD 0 0)
            (if 0 + 1 < (scan data256).length then (scan data256).getD (0 + 1) 0
             else data256.length))) :=
  ⟨by decide, extract_slicing_and_naming.1 data256 0 (by decide)⟩

/-- Counterexample to C9: a 96-byte container that is a single extracted
region shorter than 128 bytes with tag bytes DXT1 at [84,88).  The extractor
records the tag DXT1 read straight from bytes [84,88), while the header
inspector returns the undetermined sentinel for the same slice — the index
tag and the inspector disagree, and the short slice does not get the
sentinel. -/
theorem extract_tag_vs_inspector_cex :
    extractEntries data96 = [(ddsName 0, 0, data96)] ∧
    extractFourcc data96 = [68, 88, 84, 49] ∧
    get_dds_format data96 = none := by
  decide

/-- Amended C9: for an extracted slice that passes the inspector's validity
check (at least 128 bytes, magic marker) and whose stripped tag bytes are
nonempty, the tag the extractor records equals the inspector's tag. -/
theorem extract_tag_vs_inspector_amended (data : List Nat) (e : List Nat × Nat × List Nat)
    (he : e ∈ extractEntries data) (hlen : 128 ≤ e.2.2.length)
    (hmagic : pySlice e.2.2 0 4 = ddsSignature)
    (htag : pyStrip (asciiDecodeIgnore (pySlice e.2.2 84 88)) ≠ []) :
    some (extractFourcc e.2.2) = get_dds_format e.2.2 := by
  simp only [extractFourcc, get_dds_format]
  rw [if_neg htag, if_neg (by push_neg; exact ⟨by omega, hmagic⟩)]

/-- Witness for the amended C9 at the first slice of the scenario container. -/
theorem extract_tag_vs_inspector_amended_witness :
    ((ddsName 0, 0, pySlice data256 0 128) ∈ extractEntries data256 ∧
      128 ≤ (pySlice data256 0 128).length ∧
      pySlice (pySlice data256 0 128) 0 4 = ddsSignature ∧
      pyStrip (asciiDecodeIgnore (pySlice (pySlice data256 0 128) 84 88)) ≠ []) ∧
    some (extractFourcc (pySlice data256 0 128)) = get_dds_format (pySlice data256 0 128) :=
  ⟨by decide, extract_tag_vs_inspector_amended data256 (ddsName 0, 0, pySlice data256 0 128)
    (by decide) (by decide) (by decide) (by decide)⟩

